import Mathlib
/-!
Verification of the country-reconciliation and chunked-batch-fetch core of the
`imdb-sql` repository.

Part 1 embeds `IMDBApi.__merge_countries` (src/core/imdb.py, lines 163-187)
together with the `WikiImdbCountry` record it consumes (src/core/wiki.py,
lines 63-70).

Part 2 embeds the `retry_fetch` decorator (src/core/wiki.py, lines 73-144)
as an explicit state machine.

Python sets have an arbitrary iteration order.  Wherever the source iterates
a set, the embedding either takes the iteration order as an explicit list
parameter (when a claim depends on it) or fixes a canonical order (when the
claim is order-independent); each such choice is noted at the definition.
-/
namespace ImdbSql
/-! ### Lexicographic comparison of rank tuples

Python compares tuples of integers lexicographically.  `__merge_countries`
builds 5-tuples of non-negative integers, modelled here as `List ℕ`.
`lexLe a b` is Python's `a <= b` on such tuples. -/
def lexLe : List ℕ → List ℕ → Bool
  | [], _ => true
  | _ :: _, [] => false
  | a :: as, b :: bs => if a < b then true else if b < a then false else lexLe as bs
/-! ### The `WikiImdbCountry` record (src/core/wiki.py, lines 63-70)

Python tuples of country codes become `List String`; the per-role
`dict[str, int]` occurrence counters become association lists. -/
structure WikiImdbCountry where
  imdb : String
  main : List String
  producer : List (String × ℕ)
  director : List (String × ℕ)
  casting : List (String × ℕ)
  writer : List (String × ℕ)
  country_lang : List String
deriving DecidableEq
/-- Python `d.get(m, 0)` on the per-role occurrence dicts. -/
def dictGet (d : List (String × ℕ)) (m : String) : ℕ := (d.lookup m).getD 0
/-- The rank tuple built in `__merge_countries` (src/core/imdb.py, lines 175-181):
`(int(m in wd.country_lang), producer.get(m,0), director.get(m,0),
writer.get(m,0), casting.get(m,0))`. -/
def rankKey (wd : WikiImdbCountry) (m : String) : List ℕ :=
  [if m ∈ wd.country_lang then 1 else 0,
   dictGet wd.producer m,
   dictGet wd.director m,
   dictGet wd.writer m,
   dictGet wd.casting m]
/-! ### `__merge_countries` (src/core/imdb.py, lines 163-187) -/
/-- Lines 164-168: the candidate-pool fusion of the two sources.
`wdMain` is `wd.main` (declared main-country role), `omdb` is the tuple from
the OMDb metadata API.

```
main = set()
if omdb and wd.main:
    main = set(omdb).intersection(wd.main)
if len(main) == 0:
    main = set(omdb) or set(wd.main)
```

Sets are modelled as duplicate-free lists; as the canonical iteration order we
take first-occurrence order (`dedup`).  All claims about this stage are
set-level, so the choice of order is immaterial. -/
def interPool (wdMain omdb : List String) : List String :=
  if omdb ≠ [] ∧ wdMain ≠ [] then omdb.dedup.filter (fun c => decide (c ∈ wdMain)) else []
def mergeCountrySources (wdMain omdb : List String) : List String :=
  if interPool wdMain omdb = [] then (if omdb ≠ [] then omdb.dedup else wdMain.dedup)
  else interPool wdMain omdb
/-- Lines 169-172: the language-implied-country disambiguation filter.
```
if wd.country_lang:
    ok_lang = set(main).intersection(wd.country_lang)
    if ok_lang:
        main = ok_lang
```
The result is the candidate set over which rank keys are computed. -/
def candPool (wd : WikiImdbCountry) (omdb : List String) : List String :=
  if wd.country_lang ≠ [] then
    if (mergeCountrySources wd.main omdb).filter (fun c => decide (c ∈ wd.country_lang)) ≠ [] then
      (mergeCountrySources wd.main omdb).filter (fun c => decide (c ∈ wd.country_lang))
    else mergeCountrySources wd.main omdb
  else mergeCountrySources wd.main omdb
/-- The comparison used by `sorted(main, key=lambda x: order[x], reverse=True)`:
`rkGe wd a b` holds when `a`'s rank key is lexicographically ≥ `b`'s.
Python's `sorted` with `reverse=True` is a stable sort along exactly this
relation. -/
def rkGe (wd : WikiImdbCountry) (a b : String) : Prop :=
  lexLe (rankKey wd b) (rankKey wd a) = true
instance (wd : WikiImdbCountry) : DecidableRel (rkGe wd) := fun _ _ =>
  inferInstanceAs (Decidable (_ = true))
/-- Descending comparison on rank keys, for `sorted(set(order.values()), reverse=True)`. -/
def keyGe (a b : List ℕ) : Prop := lexLe b a = true
instance : DecidableRel keyGe := fun _ _ => inferInstanceAs (Decidable (_ = true))
/-- Line 183: `sorted_order = sorted(set(order.values()), reverse=True)` —
the DISTINCT rank keys of the pool, in descending lexicographic order. -/
def sortedKeys (wd : WikiImdbCountry) (pool : List String) : List (List ℕ) :=
  List.insertionSort keyGe (pool.map (rankKey wd)).dedup
/-- Lines 182-186: the cutoff.  `index_threshold = 3`; when the number of
distinct rank keys exceeds 3, keep the candidates whose key is ≥
`sorted_order[2]`.  `iter` is the iteration order of the candidate set. -/
def survivors (wd : WikiImdbCountry) (omdb : List String) (iter : List String) : List String :=
  if 3 < (sortedKeys wd (candPool wd omdb)).length then
    iter.filter (fun m => lexLe ((sortedKeys wd (candPool wd omdb)).getD 2 []) (rankKey wd m))
  else iter
/-- Lines 173-187 of `__merge_countries`, with the iteration order of the
candidate set `main` made explicit as `iter` (a permutation of `candPool`):
rank keys are computed, the cutoff applied, and the result stably sorted by
rank key descending (line 187). -/
def mergeCountriesIter (wd : WikiImdbCountry) (omdb : List String) (iter : List String) :
    List String :=
  List.insertionSort (rkGe wd) (survivors wd omdb iter)
/-- `__merge_countries` at the canonical (first-occurrence) iteration order of
the candidate set. -/
def mergeCountries (wd : WikiImdbCountry) (omdb : List String) : List String :=
  mergeCountriesIter wd omdb (candPool wd omdb)
/-! ### Concrete evidence records used by the claims about `__merge_countries` -/
/-- The RoleEvidence instance named by claim C1: `{producer:{"USA":2},
director:{"USA":1,"FRA":1}, writer:{}, cast:{}, main:{}, lang:{}}`. -/
def wdC1 : WikiImdbCountry :=
  ⟨"tt0000001", [], [("USA", 2)], [("USA", 1), ("FRA", 1)], [], [], []⟩
/-- Evidence record used for the C1 witness: empty primary role, no
contributor weights. -/
def wdC1w : WikiImdbCountry := ⟨"tt0000002", [], [], [], [], [], []⟩
/-- Candidate set for the C3 counterexample: four candidates, three distinct
rank keys (two candidates tie at the top). -/
def wdC3 : WikiImdbCountry :=
  ⟨"tt0000003", ["AAA", "BBB", "CCC", "DDD"],
   [("AAA", 3), ("BBB", 3), ("CCC", 2), ("DDD", 1)], [], [], [], []⟩
/-- Candidate set for the C4 counterexample: two candidates with fully tied
(all-zero) rank keys. -/
def wdC4 : WikiImdbCountry := ⟨"tt0000004", ["AAA", "BBB"], [], [], [], [], []⟩
/-!
## Part 2: the `retry_fetch` decorator (src/core/wiki.py, lines 73-144)

The wrapper is embedded as an explicit state machine over `FetchSt`.  The
injected query function `func` becomes `fetch : ℕ → List String → Except
WikiError (List (String × V))`, indexed by the wrapper's running chunk-call
counter `count` so that successive calls may answer differently; its `Except`
type reflects that the protocol allows it to fail only with `WikiError`
(the single exception type the wrapper catches).  Success values are
association lists (Python dicts have unique keys; theorems that need this
carry it as a hypothesis).  Wall-clock time is modelled by an explicit
`clock` counter: each chunk call advances it by an oracle duration
`dur count`, the inter-round pause by 5 and the rate-limit cooldown by 60
(the code's `sleep(5)` / `sleep(60)`), and `datetime.now() < until` becomes
`clock < untilT` with `untilT = 60*5 = 300` and a start clock of 0.

`calls` and `rounds` are ghost fields: they record, without influencing any
behaviour, which chunks were passed to `fetch` and the `(tries, clock,
len(undone), cur_chunk_size)` snapshot at each round entry.

An aborted run is represented by a `some msg` second component (`"KeyError"`
for `undone.remove(k)` on an absent key, the set-mutation `RuntimeError` for
the memoization loop); `none` means the wrapper returned normally.
-/
/-- `WikiError` (src/core/wiki.py, lines 43-60): message, query text and
optional HTTP status code. -/
structure WikiError where
  msg : String
  query : String
  httpCode : Option Int
deriving DecidableEq
/-- Ghost record of one round of the retry loop: the value of `tries` during
the round, the clock when the loop guard admitted the round, `len(undone)` at
round entry, and the chunk size used for the round. -/
structure RoundRec where
  t : ℕ
  clk : ℕ
  pen : ℕ
  sz : ℕ
deriving DecidableEq
/-- The state threaded through one `retry_fetch` wrapper call.  `memo` is the
decorator's `internal_cache` (shared across calls: it enters and leaves
through `retryFetchSt`), keyed by `(key_cache, key)`. -/
structure FetchSt (V : Type) where
  undone : List String
  result : List (String × V)
  memo : List ((String × String) × V)
  count : ℕ
  clock : ℕ
  tries : ℕ
  curChunk : ℕ
  calls : List (ℕ × List String)
  rounds : List RoundRec
/-- Python `dict.get`: the value at the first (= only) entry with key `k`. -/
def getA {α β : Type _} [DecidableEq α] (l : List (α × β)) (k : α) : Option β :=
  (l.find? (fun p => decide (p.1 = k))).map Prod.snd
/-- Python `dict.__setitem__`: replace in place if present, else append. -/
def updA {α β : Type _} [DecidableEq α] (l : List (α × β)) (k : α) (v : β) : List (α × β) :=
  if (l.find? (fun p => decide (p.1 = k))).isSome then
    l.map (fun p => if p.1 = k then (k, v) else p)
  else l ++ [(k, v)]
/-- `iter_chunk` (src/core/util.py, lines 64-72): greedily groups a list into
chunks of `size`, the last chunk possibly shorter; with `size = 0` the whole
list comes out as one chunk (the accumulator length never equals 0 after an
append), exactly as in the Python generator. -/
def iterChunkAux {α : Type _} (size : ℕ) (arr : List α) : List α → List (List α)
  | [] => if arr.isEmpty then [] else [arr]
  | a :: rest =>
      if (arr ++ [a]).length = size then (arr ++ [a]) :: iterChunkAux size [] rest
      else iterChunkAux size (arr ++ [a]) rest
def iter_chunk {α : Type _} (size : ℕ) (l : List α) : List (List α) :=
  iterChunkAux size [] l
/-- The message of the `RuntimeError` CPython raises when a set is mutated
while being iterated. -/
def setIterMsg : String := "RuntimeError: Set changed size during iteration"
/-- Lines 88-93 of src/core/wiki.py:

```
result = dict()
for a in undone:
    val = internal_cache.get((key_cache, a))
    if val is not None:
        result[a] = val
        undone.discard(a)
```

The loop iterates the set `undone` WHILE discarding from it.  CPython's set
iterator checks the set's size at every `next()` (including the final one
that would end the loop), so the first discard makes the very next step raise
`RuntimeError: Set changed size during iteration`.  `changed` records whether
a discard has happened; `todo` is the iteration order of the set. -/
def memoLoop {V : Type} (opKey : String) (changed : Bool) :
    List String → FetchSt V → FetchSt V × Option String
  | [], st => (st, if changed then some setIterMsg else none)
  | a :: rest, st =>
      if changed then (st, some setIterMsg)
      else
        match getA st.memo (opKey, a) with
        | some v =>
            memoLoop opKey true rest
              { st with result := updA st.result a v, undone := st.undone.erase a }
        | none => memoLoop opKey changed rest st
/-- Lines 132-135: merge one (already truthiness-filtered) fetched mapping.

```
for k, v in fetched.items():
    result[k] = v
    internal_cache[(key_cache, k)] = v
    undone.remove(k)
```

`set.remove` raises `KeyError` when the key is absent; `result` and the cache
have already been updated for that entry when it raises, and the run aborts. -/
def removeAll {V : Type} (opKey : String) :
    List (String × V) → FetchSt V → FetchSt V × Option String
  | [], st => (st, none)
  | (k, v) :: rest, st =>
      if k ∈ st.undone then
        removeAll opKey rest
          { st with result := updA st.result k v,
                    memo := updA st.memo (opKey, k) v,
                    undone := st.undone.erase k }
      else
        ({ st with result := updA st.result k v, memo := updA st.memo (opKey, k) v },
         some "KeyError")
/-- Lines 116-136: one chunk.  `count` is incremented, the call charged `dur
count` time; a `WikiError` with code 429 costs the extra `sleep(60)`, any
other failure only records a diagnostic sample (no state we track); a success
is filtered to its truthy values and merged. -/
def processChunk {V : Type} (fetch : ℕ → List String → Except WikiError (List (String × V)))
    (truthy : V → Bool) (opKey : String) (dur : ℕ → ℕ)
    (st : FetchSt V) (chunk : List String) : FetchSt V × Option String :=
  match fetch st.count chunk with
  | .error e =>
      ({ st with count := st.count + 1,
                 clock := st.clock + dur st.count + (if e.httpCode = some 429 then 60 else 0),
                 calls := st.calls ++ [(st.count, chunk)] },
       none)
  | .ok fetched =>
      removeAll opKey (fetched.filter (fun p => truthy p.2))
        { st with count := st.count + 1,
                  clock := st.clock + dur st.count,
                  calls := st.calls ++ [(st.count, chunk)] }
/-- The `for chunk in iter_chunk(cur_chunk_size, list(undone))` loop; any
uncaught exception aborts the whole run. -/
def processChunks {V : Type} (fetch : ℕ → List String → Except WikiError (List (String × V)))
    (truthy : V → Bool) (opKey : String) (dur : ℕ → ℕ) :
    List (List String) → FetchSt V → FetchSt V × Option String
  | [], st => (st, none)
  | c :: cs, st =>
      match processChunk fetch truthy opKey dur st c with
      | (st', none) => processChunks fetch truthy opKey dur cs st'
      | (st', some e) => (st', some e)
/-- `until = datetime.now() + timedelta(seconds=60*5)` with start clock 0. -/
def untilT : ℕ := 300
/-- The `while` guard (line 109):
`undone and (tries == 0 or (datetime.now() < until and tries < 3))`. -/
def loopGuard {V : Type} (st : FetchSt V) : Prop :=
  st.undone ≠ [] ∧ (st.tries = 0 ∨ (st.clock < untilT ∧ st.tries < 3))
instance {V : Type} (st : FetchSt V) : Decidable (loopGuard st) :=
  inferInstanceAs (Decidable (_ ∧ _))
/-- Lines 111-115: `tries += 1`; on rounds after the first (`tries > 1`, i.e.
pre-increment `tries > 0`) shrink the chunk size to
`max(1, min(cur_chunk_size, len(undone)) // 3)` and `sleep(5)`.  A ghost
`RoundRec` is appended. -/
def startRound {V : Type} (st : FetchSt V) : FetchSt V :=
  if 0 < st.tries then
    { st with tries := st.tries + 1,
              curChunk := max 1 (min st.curChunk st.undone.length / 3),
              clock := st.clock + 5,
              rounds := st.rounds ++
                [⟨st.tries + 1, st.clock, st.undone.length,
                  max 1 (min st.curChunk st.undone.length / 3)⟩] }
  else
    { st with tries := st.tries + 1,
              rounds := st.rounds ++ [⟨st.tries + 1, st.clock, st.undone.length, st.curChunk⟩] }
/-- The retry loop (lines 109-136).  The guard admits at most 3 rounds
(`tries` grows by one per round and must stay below 3 after the first), so
fuel 3 is exact: `runLoop_guard_stops` below shows a state with `tries ≥ 3`
exits immediately, hence the fuel never truncates a run that the Python loop
would continue. -/
def runLoop {V : Type} (fetch : ℕ → List String → Except WikiError (List (String × V)))
    (truthy : V → Bool) (opKey : String) (dur : ℕ → ℕ) :
    ℕ → FetchSt V → FetchSt V × Option String
  | 0, st => (st, none)
  | fuel + 1, st =>
      if loopGuard st then
        match processChunks fetch truthy opKey dur
            (iter_chunk (startRound st).curChunk (startRound st).undone) (startRound st) with
        | (st', none) => runLoop fetch truthy opKey dur fuel st'
        | (st', some e) => (st', some e)
      else (st, none)
/-- `undone = set(args).difference({None, ''})` — duplicates and empty keys
dropped; first-occurrence order stands in for the set's iteration order. -/
def undoneInit (args : List String) : List String :=
  (args.filter (fun a => decide (a ≠ ""))).dedup
def initSt {V : Type} (chunkSize : ℕ) (memo0 : List ((String × String) × V))
    (undone : List String) : FetchSt V :=
  ⟨undone, [], memo0, 0, 0, 0, chunkSize, [], []⟩
/-- The whole wrapper body (lines 78-141).  `opKey` is `key_cache =
json.dumps((func.__name__, kwargs))`; `memo0` is the decorator's
`internal_cache` as of this call; `chunkSize` the decorator argument.
Returns the final state (whose `result` field is the returned mapping) and
`none`, or the state at abort and the uncaught exception. -/
def retryFetchSt {V : Type} (fetch : ℕ → List String → Except WikiError (List (String × V)))
    (truthy : V → Bool) (opKey : String) (dur : ℕ → ℕ) (chunkSize : ℕ)
    (memo0 : List ((String × String) × V)) (args : List String) :
    FetchSt V × Option String :=
  if undoneInit args = [] then (initSt chunkSize memo0 [], none)
  else
    match memoLoop opKey false (undoneInit args) (initSt chunkSize memo0 (undoneInit args)) with
    | (st1, some e) => (st1, some e)
    | (st1, none) => runLoop fetch truthy opKey dur 3 st1
/-- The precondition claim C10 identifies: whenever `fetch` succeeds on a
duplicate-free chunk, the returned mapping has unique keys (it is a Python
dict) and every truthy value sits at a key of the requested chunk. -/
def WellBehaved {V : Type} (fetch : ℕ → List String → Except WikiError (List (String × V)))
    (truthy : V → Bool) : Prop :=
  ∀ i c l, c.Nodup → fetch i c = .ok l →
    (l.map Prod.fst).Nodup ∧ ∀ p ∈ l, truthy p.2 = true → p.1 ∈ c
/-- The truthy value the chunk call `(i, c)` would contribute for key `k`. -/
def fetchVal {V : Type} (fetch : ℕ → List String → Except WikiError (List (String × V)))
    (truthy : V → Bool) (i : ℕ) (c : List String) (k : String) : Option V :=
  match fetch i c with
  | .error _ => none
  | .ok l => getA (l.filter (fun p => truthy p.2)) k
/-! ### The loop invariant

`Inv` collects the facts claims C5 and C8 need about every state the wrapper
reaches in a run whose `fetch` is `WellBehaved` and whose memo table had no
hit for any pending key: the pending set is duplicate-free and drawn from the
initial key set `A`; resolved keys have left the pending set and came from
`A`; pending keys have no memo entry; ghost call indices are below `count`;
a key resolved by some recorded chunk call stays resolved with that call's
value (first success wins); and a key resolved by one call never reappears in
a later call's chunk. -/
structure Inv {V : Type} (fetch : ℕ → List String → Except WikiError (List (String × V)))
    (truthy : V → Bool) (opKey : String) (A : List String) (st : FetchSt V) : Prop where
  und_nodup : st.undone.Nodup
  und_sub : st.undone ⊆ A
  res_not_und : ∀ k, (getA st.result k).isSome → k ∉ st.undone
  res_sub : ∀ k, (getA st.result k).isSome → k ∈ A
  memo_fresh : ∀ k ∈ st.undone, getA st.memo (opKey, k) = none
  calls_lt : ∀ p ∈ st.calls, p.1 < st.count
  pinned : ∀ p ∈ st.calls, ∀ k ∈ p.2, (fetchVal fetch truthy p.1 p.2 k).isSome = true →
    k ∉ st.undone ∧ getA st.result k = fetchVal fetch truthy p.1 p.2 k
  no_refetch : ∀ p ∈ st.calls, ∀ q ∈ st.calls, p.1 < q.1 →
    ∀ k ∈ p.2, (fetchVal fetch truthy p.1 p.2 k).isSome = true → k ∉ q.2
/-! ### The round-trace invariant (claims C6 and C7)

`rstep` is the relation between two consecutive round records: `tries` grows
by one and the chunk size obeys the shrink rule
`cur = max(1, min(cur, len(undone)) // 3)` (line 113); the last two
conjuncts are its unconditional arithmetic consequences. -/
def rstep (a b : RoundRec) : Prop :=
  b.t = a.t + 1 ∧ b.sz = max 1 (min a.sz b.pen / 3) ∧
    b.sz ≤ max a.sz 1 ∧ (b.sz < a.sz ∨ b.sz ≤ 1)
/-- The strengthened relation available once every recorded size is ≥ 1
(i.e. whenever the decorator's `chunk_size` argument is ≥ 1, as at every call
site: 300, 1000, 5000 and the default). -/
def rstepStrict (a b : RoundRec) : Prop :=
  b.t = a.t + 1 ∧ b.sz = max 1 (min a.sz b.pen / 3) ∧
    b.sz ≤ a.sz ∧ (b.sz < a.sz ∨ b.sz = 1)
structure RInv {V : Type} (chunkSize : ℕ) (st : FetchSt V) : Prop where
  len_tries : st.rounds.length = st.tries
  tries_le : st.tries ≤ 3
  last_t : ∀ e, st.rounds.getLast? = some e → e.t = st.tries ∧ e.sz = st.curChunk
  entries : ∀ e ∈ st.rounds, 1 ≤ e.t ∧ (2 ≤ e.t → e.clk < untilT) ∧ 1 ≤ e.pen
  chain : List.Chain' rstep st.rounds
  cur_pos : 1 ≤ chunkSize → 1 ≤ st.curChunk
  sz_pos : 1 ≤ chunkSize → ∀ e ∈ st.rounds, 1 ≤ e.sz
/-- No key of this call is already memoized (the memo table starts empty in a
fresh process, and these keys were never resolved before). -/
def NoHits {V : Type} (opKey : String) (memo0 : List ((String × String) × V))
    (args : List String) : Prop :=
  ∀ a ∈ undoneInit args, getA memo0 (opKey, a) = none
/-!
## Theorems

Everything below is proof: first the order-theoretic facts about `lexLe` and
the sort relations, then the claims about `__merge_countries` (C1-C4), then
the lemma stack for the `retry_fetch` state machine and the claims about it
(C5-C10).
-/
theorem lexLe_refl (a : List ℕ) : lexLe a a = true := by
  induction a with
  | nil => rfl
  | cons x xs ih => simp [lexLe, ih]
theorem lexLe_total (a b : List ℕ) : lexLe a b = true ∨ lexLe b a = true := by
  induction a generalizing b with
  | nil => exact Or.inl rfl
  | cons x xs ih =>
    cases b with
    | nil => exact Or.inr rfl
    | cons y ys =>
      rcases Nat.lt_trichotomy x y with h | h | h
      · exact Or.inl (by simp [lexLe, h])
      · subst h
        rcases ih ys with h' | h'
        · exact Or.inl (by simp [lexLe, h'])
        · exact Or.inr (by simp [lexLe, h'])
      · exact Or.inr (by simp [lexLe, h])
theorem lexLe_trans {a b c : List ℕ} (h₁ : lexLe a b = true) (h₂ : lexLe b c = true) :
    lexLe a c = true := by
  induction a generalizing b c with
  | nil => rfl
  | cons x xs ih =>
    cases b with
    | nil => simp [lexLe] at h₁
    | cons y ys =>
      cases c with
      | nil => simp [lexLe] at h₂
      | cons z zs =>
        simp only [lexLe] at h₁ h₂ ⊢
        rcases Nat.lt_trichotomy x y with hxy | hxy | hxy
        · rcases Nat.lt_trichotomy y z with hyz | hyz | hyz
          · simp [Nat.lt_trans hxy hyz]
          · subst hyz; simp [hxy]
          · simp [Nat.lt_asymm hyz, hyz] at h₂
        · subst hxy
          simp only [Nat.lt_irrefl, if_false] at h₁
          rcases Nat.lt_trichotomy x z with hxz | hxz | hxz
          · simp [hxz]
          · subst hxz
            simp only [Nat.lt_irrefl, if_false] at h₂ ⊢
            exact ih h₁ h₂
          · simp [Nat.lt_asymm hxz, hxz] at h₂
        · simp [Nat.lt_asymm hxy, hxy] at h₁
instance (wd : WikiImdbCountry) : IsTotal String (rkGe wd) :=
  ⟨fun a b => (lexLe_total (rankKey wd a) (rankKey wd b)).symm⟩
instance (wd : WikiImdbCountry) : IsTrans String (rkGe wd) :=
  ⟨fun _ _ _ h₁ h₂ => lexLe_trans h₂ h₁⟩
instance : IsTotal (List ℕ) keyGe := ⟨fun a b => (lexLe_total a b).symm⟩
instance : IsTrans (List ℕ) keyGe := ⟨fun _ _ _ h₁ h₂ => lexLe_trans h₂ h₁⟩
/-! ### Generic membership lemmas for the reconciler -/
theorem mem_iter_of_mem_mergeCountriesIter {wd : WikiImdbCountry} {omdb iter : List String}
    {c : String} (h : c ∈ mergeCountriesIter wd omdb iter) : c ∈ iter := by
  unfold mergeCountriesIter at h
  rw [List.mem_insertionSort] at h
  unfold survivors at h
  split at h
  · exact (List.mem_filter.mp h).1
  · exact h
theorem mem_merge_sources_of_mem_candPool {wd : WikiImdbCountry} {omdb : List String}
    {c : String} (h : c ∈ candPool wd omdb) : c ∈ mergeCountrySources wd.main omdb := by
  unfold candPool at h
  split at h
  · split at h
    · exact (List.mem_filter.mp h).1
    · exact h
  · exact h
theorem mem_omdb_of_mem_merge_sources_nil {omdb : List String} {c : String}
    (h : c ∈ mergeCountrySources [] omdb) : c ∈ omdb := by
  by_cases ho : omdb = []
  · subst ho; simp [mergeCountrySources, interPool] at h
  · simp [mergeCountrySources, interPool, ho] at h
    exact h
theorem dedup_toFinset (l : List String) : l.dedup.toFinset = l.toFinset := by
  ext c
  simp [List.mem_dedup]
/-! ### Claim C1 -/
/-- C1 counterexample: on the RoleEvidence of the claim (empty primary role,
no secondary OMDb signal), `__merge_countries` returns the empty tuple, not
`["USA"]`: producer/director/writer/cast evidence never enters the candidate
pool. -/
theorem c1_counterexample :
    mergeCountries wdC1 [] = [] ∧ mergeCountries wdC1 [] ≠ ["USA"] := by decide
/-- C1 (amended): when the primary role (declared main-country) produced no
evidence, the candidate pool falls back to the secondary (OMDb) signal alone —
every reconciled value is drawn from `omdb`; the other roles contribute only
rank weights, never candidates. -/
theorem c1_amended (wd : WikiImdbCountry) (omdb : List String) (c : String)
    (hmain : wd.main = []) (hc : c ∈ mergeCountries wd omdb) : c ∈ omdb := by
  have h1 : c ∈ candPool wd omdb :=
    mem_iter_of_mem_mergeCountriesIter hc
  have h2 := mem_merge_sources_of_mem_candPool h1
  rw [hmain] at h2
  exact mem_omdb_of_mem_merge_sources_nil h2
theorem c1_amended_witness :
    wdC1w.main = [] ∧ "USA" ∈ mergeCountries wdC1w ["USA"] ∧ "USA" ∈ (["USA"] : List String) :=
  ⟨rfl, by decide, c1_amended wdC1w ["USA"] "USA" rfl (by decide)⟩
/-! ### Claim C2 -/
/-- C2 counterexample: for non-empty DISJOINT primary and secondary the claim
predicts the union (containing both), but the code's fallback `set(omdb) or
set(wd.main)` keeps the secondary alone: `"USA"` is dropped. -/
theorem c2_counterexample :
    mergeCountrySources ["USA"] ["FRA"] = ["FRA"] ∧
      "USA" ∉ mergeCountrySources ["USA"] ["FRA"] := by decide
/-- C2 (amended): `mergeCountrySources` computes the intersection when both
inputs are non-empty and returns it if non-empty; when the intersection is
empty the result is the SECONDARY if non-empty, else the primary (so for
non-empty disjoint inputs the secondary alone survives; `([], {FRA}) ↦ {FRA}`;
`([USA], {}) ↦ {USA}`; both empty ↦ empty). -/
theorem c2_amended (p s : List String) :
    (p.toFinset ∩ s.toFinset ≠ ∅ →
      (mergeCountrySources p s).toFinset = p.toFinset ∩ s.toFinset) ∧
    (p.toFinset ∩ s.toFinset = ∅ →
      (mergeCountrySources p s).toFinset = if s = [] then p.toFinset else s.toFinset) := by
  by_cases hs : s = []
  · subst hs
    refine ⟨fun hinter => absurd ?_ hinter, fun _ => ?_⟩
    · simp
    · simp [mergeCountrySources, interPool, dedup_toFinset]
  · by_cases hp : p = []
    · subst hp
      refine ⟨fun hinter => absurd ?_ hinter, fun _ => ?_⟩
      · simp
      · simp [mergeCountrySources, interPool, hs, dedup_toFinset]
    · have hpool : (interPool p s).toFinset = p.toFinset ∩ s.toFinset := by
        ext c
        simp [interPool, hs, hp, List.mem_filter, List.mem_dedup, and_comm]
      constructor
      · intro hinter
        have hne : interPool p s ≠ [] := by
          intro hnil
          rw [hnil] at hpool
          exact hinter (by simpa using hpool.symm)
        rw [mergeCountrySources, if_neg hne]
        exact hpool
      · intro hinter
        have hnil : interPool p s = [] := by
          have : (interPool p s).toFinset = ∅ := by rw [hpool]; exact hinter
          simpa [List.toFinset_eq_empty_iff] using this
        rw [mergeCountrySources, if_pos hnil, if_pos hs, if_neg hs]
        exact dedup_toFinset s
theorem c2_amended_witness :
    (["USA", "FRA"] : List String).toFinset ∩ (["FRA"] : List String).toFinset ≠ ∅ ∧
      (mergeCountrySources ["USA", "FRA"] ["FRA"]).toFinset =
        (["USA", "FRA"] : List String).toFinset ∩ (["FRA"] : List String).toFinset :=
  ⟨by decide, (c2_amended ["USA", "FRA"] ["FRA"]).1 (by decide)⟩
/-! ### Claim C3 -/
/-- C3 counterexample: with 4 candidates (more than the threshold 3) the claim
says only candidates with RankKey ≥ the 3rd candidate's RankKey survive, which
would drop `"DDD"` (its key is strictly below `"CCC"`'s, the 3rd candidate).
The code compares the number of DISTINCT RankKeys (3 here, not > 3) and keeps
all four. -/
theorem c3_counterexample :
    mergeCountries wdC3 [] = ["AAA", "BBB", "CCC", "DDD"] ∧
    3 < (mergeCountries wdC3 []).length ∧
    lexLe (rankKey wdC3 "DDD") (rankKey wdC3 "CCC") = true ∧
    rankKey wdC3 "DDD" ≠ rankKey wdC3 "CCC" ∧
    "DDD" ∈ mergeCountries wdC3 [] := by decide
/-- C3 (amended): the cutoff is governed by the number of DISTINCT rank keys:
when it exceeds the index threshold 3, exactly the candidates whose key is ≥
the third-largest distinct key survive; otherwise every candidate survives. -/
theorem c3_amended (wd : WikiImdbCountry) (omdb : List String) (m : String) :
    (3 < (sortedKeys wd (candPool wd omdb)).length →
      (m ∈ mergeCountries wd omdb ↔
        m ∈ candPool wd omdb ∧
          lexLe ((sortedKeys wd (candPool wd omdb)).getD 2 []) (rankKey wd m) = true)) ∧
    ((sortedKeys wd (candPool wd omdb)).length ≤ 3 →
      (m ∈ mergeCountries wd omdb ↔ m ∈ candPool wd omdb)) := by
  constructor
  · intro hlen
    unfold mergeCountries mergeCountriesIter
    rw [List.mem_insertionSort]
    unfold survivors
    rw [if_pos hlen, List.mem_filter]
  · intro hlen
    unfold mergeCountries mergeCountriesIter
    rw [List.mem_insertionSort]
    unfold survivors
    rw [if_neg (by omega)]
theorem c3_amended_witness :
    (sortedKeys wdC3 (candPool wdC3 [])).length ≤ 3 ∧
      ("DDD" ∈ mergeCountries wdC3 [] ↔ "DDD" ∈ candPool wdC3 []) :=
  ⟨by decide, (c3_amended wdC3 [] "DDD").2 (by decide)⟩
/-! ### Claim C4 -/
/-- C4 counterexample: two legitimate iteration orders of the same candidate
set give DIFFERENT outputs; in the first, the fully tied pair is not in the
value's natural ascending order.  The result therefore depends on the set
iteration order, contradicting the claimed determinism and ascending tie
order. -/
theorem c4_counterexample :
    mergeCountriesIter wdC4 [] ["BBB", "AAA"] = ["BBB", "AAA"] ∧
    mergeCountriesIter wdC4 [] ["AAA", "BBB"] = ["AAA", "BBB"] ∧
    mergeCountriesIter wdC4 [] ["BBB", "AAA"] ≠ mergeCountriesIter wdC4 [] ["AAA", "BBB"] ∧
    (["BBB", "AAA"] : List String).Perm (candPool wdC4 []) ∧
    (["AAA", "BBB"] : List String).Perm (candPool wdC4 []) := by decide
/-- C4 (amended): the reconciled result is deterministic only up to tie order:
for any two iteration orders of the candidate set the outputs are permutations
of each other (the SET of winners and the rank-key-descending ordering are
determined by the evidence), and the output is sorted by rank key descending;
only the relative order of fully tied candidates follows the set iteration
order. -/
theorem c4_amended (wd : WikiImdbCountry) (omdb : List String) (it₁ it₂ : List String)
    (h₁ : it₁.Perm (candPool wd omdb)) (h₂ : it₂.Perm (candPool wd omdb)) :
    (mergeCountriesIter wd omdb it₁).Perm (mergeCountriesIter wd omdb it₂) ∧
      List.Sorted (rkGe wd) (mergeCountriesIter wd omdb it₁) := by
  constructor
  · have hsv : (survivors wd omdb it₁).Perm (survivors wd omdb it₂) := by
      unfold survivors
      split
      · exact List.Perm.filter _ (h₁.trans h₂.symm)
      · exact h₁.trans h₂.symm
    exact ((List.perm_insertionSort (rkGe wd) (survivors wd omdb it₁)).trans hsv).trans
      (List.perm_insertionSort (rkGe wd) (survivors wd omdb it₂)).symm
  · exact List.sorted_insertionSort (rkGe wd) (survivors wd omdb it₁)
theorem c4_amended_witness :
    (mergeCountriesIter wdC4 [] ["BBB", "AAA"]).Perm (mergeCountriesIter wdC4 [] ["AAA", "BBB"]) ∧
      List.Sorted (rkGe wdC4) (mergeCountriesIter wdC4 [] ["BBB", "AAA"]) :=
  c4_amended wdC4 [] ["BBB", "AAA"] ["AAA", "BBB"] (by decide) (by decide)
/-! ### Association-list lemmas -/
theorem getA_eq_none_iff {α β : Type _} [DecidableEq α] {l : List (α × β)} {k : α} :
    getA l k = none ↔ ∀ p ∈ l, p.1 ≠ k := by
  unfold getA
  rw [Option.map_eq_none']
  rw [List.find?_eq_none]
  simp
theorem getA_cons_self {α β : Type _} [DecidableEq α] {k : α} {v : β} {l : List (α × β)} :
    getA ((k, v) :: l) k = some v := by
  unfold getA
  simp [List.find?_cons]
theorem getA_cons_ne {α β : Type _} [DecidableEq α] {k k' : α} {v : β} {l : List (α × β)}
    (h : k ≠ k') : getA ((k, v) :: l) k' = getA l k' := by
  unfold getA
  simp [List.find?_cons, h]
theorem updA_append {α β : Type _} [DecidableEq α] {l : List (α × β)} {k : α} (v : β)
    (h : getA l k = none) : updA l k v = l ++ [(k, v)] := by
  unfold updA
  rw [if_neg]
  unfold getA at h
  rw [Option.map_eq_none'] at h
  simp [h]
theorem getA_append_self {α β : Type _} [DecidableEq α] {l : List (α × β)} {k : α} {v : β}
    (h : getA l k = none) : getA (l ++ [(k, v)]) k = some v := by
  unfold getA at h ⊢
  rw [Option.map_eq_none'] at h
  rw [List.find?_append, h]
  simp
theorem getA_append_ne {α β : Type _} [DecidableEq α] {l : List (α × β)} {k k' : α} {v : β}
    (h : k ≠ k') : getA (l ++ [(k, v)]) k' = getA l k' := by
  unfold getA
  rw [List.find?_append]
  have : List.find? (fun p => decide (p.1 = k')) [(k, v)] = none := by simp [h]
  rw [this, Option.or_none]
/-! ### `iter_chunk` lemmas -/
theorem iterChunkAux_flatten {α : Type _} (size : ℕ) :
    ∀ (l arr : List α), (iterChunkAux size arr l).flatten = arr ++ l := by
  intro l
  induction l with
  | nil =>
    intro arr
    unfold iterChunkAux
    by_cases h : arr.isEmpty
    · rw [if_pos h]
      simp [List.isEmpty_iff.mp h]
    · rw [if_neg h]
      simp
  | cons a rest ih =>
    intro arr
    unfold iterChunkAux
    by_cases h : (arr ++ [a]).length = size
    · rw [if_pos h]
      simp [ih]
    · rw [if_neg h]
      rw [ih]
      simp
theorem iter_chunk_flatten {α : Type _} (size : ℕ) (l : List α) :
    (iter_chunk size l).flatten = l := by
  unfold iter_chunk
  rw [iterChunkAux_flatten]
  rfl
theorem iter_chunk_sub {α : Type _} {size : ℕ} {l : List α} {c : List α}
    (hc : c ∈ iter_chunk size l) : c ⊆ l := by
  intro x hx
  rw [← iter_chunk_flatten size l]
  exact List.mem_flatten.mpr ⟨c, hc, hx⟩
theorem iter_chunk_nodup {α : Type _} (size : ℕ) {l : List α} (h : l.Nodup) :
    (∀ c ∈ iter_chunk size l, c.Nodup) ∧ List.Pairwise List.Disjoint (iter_chunk size l) := by
  rw [← iter_chunk_flatten size l] at h
  exact List.nodup_flatten.mp h
theorem iter_chunk_ne_nil {α : Type _} {size : ℕ} {l : List α} (h : l ≠ []) :
    iter_chunk size l ≠ [] := by
  intro hc
  apply h
  rw [← iter_chunk_flatten size l, hc]
  rfl
/-! ### `memoLoop` lemmas -/
theorem memoLoop_no_hits {V : Type} (opKey : String) :
    ∀ (todo : List String) (st : FetchSt V),
      (∀ a ∈ todo, getA st.memo (opKey, a) = none) →
      memoLoop opKey false todo st = (st, none) := by
  intro todo
  induction todo with
  | nil => intro st _; rfl
  | cons a rest ih =>
    intro st h
    have ha := h a (List.mem_cons_self a rest)
    unfold memoLoop
    rw [ha]
    exact ih st (fun b hb => h b (List.mem_cons_of_mem a hb))
/-! ### `removeAll` lemmas -/
theorem removeAll_err {V : Type} (opKey : String) :
    ∀ (L : List (String × V)) (st : FetchSt V) (k : String) (v : V),
      (k, v) ∈ L → k ∉ st.undone → (removeAll opKey L st).2 = some "KeyError" := by
  intro L
  induction L with
  | nil => intro st k v h; exact absurd h (List.not_mem_nil _)
  | cons p rest ih =>
    intro st k v hmem hk
    obtain ⟨k₀, v₀⟩ := p
    unfold removeAll
    by_cases h₀ : k₀ ∈ st.undone
    · rw [if_pos h₀]
      rcases List.mem_cons.mp hmem with heq | htail
      · injection heq with h1 h2
        subst h1
        exact absurd h₀ hk
      · refine ih _ k v htail ?_
        intro hmem'
        exact hk (List.erase_subset _ _ hmem')
    · rw [if_neg h₀]
/-- Full characterisation of a successful `removeAll` merge: the entries of
`L` (pairwise-distinct keys, all still pending, none previously resolved) are
moved from `undone` into `result` and the memo table; nothing else changes. -/
theorem removeAll_sound {V : Type} (opKey : String) :
    ∀ (L : List (String × V)) (st : FetchSt V),
      (L.map Prod.fst).Nodup →
      (∀ p ∈ L, p.1 ∈ st.undone) →
      st.undone.Nodup →
      (∀ p ∈ L, getA st.result p.1 = none) →
      (∀ p ∈ L, getA st.memo (opKey, p.1) = none) →
      (removeAll opKey L st).2 = none ∧
      (removeAll opKey L st).1.undone.Nodup ∧
      (∀ x, x ∈ (removeAll opKey L st).1.undone ↔ x ∈ st.undone ∧ getA L x = none) ∧
      (∀ k, getA (removeAll opKey L st).1.result k = (getA L k).or (getA st.result k)) ∧
      (∀ k, getA (removeAll opKey L st).1.memo (opKey, k) =
        (getA L k).or (getA st.memo (opKey, k))) ∧
      (removeAll opKey L st).1.count = st.count ∧
      (removeAll opKey L st).1.clock = st.clock ∧
      (removeAll opKey L st).1.tries = st.tries ∧
      (removeAll opKey L st).1.curChunk = st.curChunk ∧
      (removeAll opKey L st).1.calls = st.calls ∧
      (removeAll opKey L st).1.rounds = st.rounds := by
  intro L
  induction L with
  | nil =>
    intro st _ _ hund _ _
    refine ⟨rfl, hund, ?_, ?_, ?_, rfl, rfl, rfl, rfl, rfl, rfl⟩
    · intro x; simp [removeAll, getA]
    · intro k; simp [removeAll, getA]
    · intro k; simp [removeAll, getA]
  | cons p rest ih =>
    intro st hnd hsub hund hres hmem
    obtain ⟨k, v⟩ := p
    have hk : k ∈ st.undone := hsub _ (List.mem_cons_self _ _)
    have hknotrest : ∀ q ∈ rest, q.1 ≠ k := by
      intro q hq
      have hnm := (List.nodup_cons.mp hnd).1
      intro hqeq
      exact hnm (List.mem_map.mpr ⟨q, hq, hqeq⟩)
    have hresk : getA st.result k = none := hres _ (List.mem_cons_self _ _)
    have hmemk : getA st.memo (opKey, k) = none := hmem _ (List.mem_cons_self _ _)
    -- the updated state after processing the head entry
    set st' : FetchSt V :=
      { st with result := updA st.result k v,
                memo := updA st.memo (opKey, k) v,
                undone := st.undone.erase k } with hst'
    have hrw : removeAll opKey ((k, v) :: rest) st = removeAll opKey rest st' := by
      conv_lhs => rw [removeAll]
      rw [if_pos hk, hst']
    have hres' : st'.result = st.result ++ [(k, v)] := updA_append v hresk
    have hmem' : st'.memo = st.memo ++ [((opKey, k), v)] := updA_append v hmemk
    have hund' : st'.undone.Nodup := hund.erase k
    have hmemerase : ∀ x, x ∈ st'.undone ↔ x ≠ k ∧ x ∈ st.undone := fun x =>
      List.Nodup.mem_erase_iff hund
    have ihsub : ∀ q ∈ rest, q.1 ∈ st'.undone := by
      intro q hq
      exact (hmemerase q.1).mpr ⟨hknotrest q hq, hsub q (List.mem_cons_of_mem _ hq)⟩
    have ihres : ∀ q ∈ rest, getA st'.result q.1 = none := by
      intro q hq
      rw [hres', getA_append_ne (fun he => hknotrest q hq he.symm)]
      exact hres q (List.mem_cons_of_mem _ hq)
    have ihmem : ∀ q ∈ rest, getA st'.memo (opKey, q.1) = none := by
      intro q hq
      rw [hmem', getA_append_ne (fun he => hknotrest q hq (congrArg Prod.snd he).symm)]
      exact hmem q (List.mem_cons_of_mem _ hq)
    obtain ⟨e0, n0, u0, r0, m0, c0, k0, t0, q0, a0, d0⟩ :=
      ih st' (List.nodup_cons.mp hnd).2 ihsub hund' ihres ihmem
    rw [hrw]
    refine ⟨e0, n0, ?_, ?_, ?_, c0, k0, t0, q0, a0, d0⟩
    · intro x
      rw [u0 x, hmemerase x]
      constructor
      · rintro ⟨⟨hxk, hxu⟩, hrest⟩
        exact ⟨hxu, by rw [getA_cons_ne (fun he => hxk he.symm)]; exact hrest⟩
      · rintro ⟨hxu, hnone⟩
        by_cases hxk : x = k
        · subst hxk
          rw [getA_cons_self] at hnone
          cases hnone
        · rw [getA_cons_ne (fun he => hxk he.symm)] at hnone
          exact ⟨⟨hxk, hxu⟩, hnone⟩
    · intro q
      rw [r0 q, hres']
      by_cases hqk : q = k
      · subst hqk
        have hrest : getA rest q = none :=
          getA_eq_none_iff.mpr (fun p hp => hknotrest p hp)
        rw [hrest, getA_cons_self, getA_append_self hresk]
        rfl
      · rw [getA_cons_ne (fun he => hqk he.symm), getA_append_ne (fun he => hqk he.symm)]
    · intro q
      rw [m0 q, hmem']
      by_cases hqk : q = k
      · subst hqk
        have hrest : getA rest q = none :=
          getA_eq_none_iff.mpr (fun p hp => hknotrest p hp)
        rw [hrest, getA_cons_self, getA_append_self hmemk]
        rfl
      · rw [getA_cons_ne (fun he => hqk he.symm),
          getA_append_ne (fun he => hqk (congrArg Prod.snd he).symm)]
theorem getA_isSome_mem {α β : Type _} [DecidableEq α] {l : List (α × β)} {k : α}
    (h : (getA l k).isSome) : ∃ v, (k, v) ∈ l := by
  unfold getA at h
  rcases hf : l.find? (fun p => decide (p.1 = k)) with _ | p
  · rw [hf] at h; simp at h
  · have hp : p.1 = k := by simpa using List.find?_some hf
    have hm := List.mem_of_find?_eq_some hf
    exact ⟨p.2, by rw [← hp]; exact hm⟩
theorem fetchVal_error {V : Type}
    {fetch : ℕ → List String → Except WikiError (List (String × V))} {truthy : V → Bool}
    {i : ℕ} {c : List String} {e : WikiError} (h : fetch i c = .error e) (k : String) :
    fetchVal fetch truthy i c k = none := by
  unfold fetchVal
  rw [h]
theorem fetchVal_ok {V : Type}
    {fetch : ℕ → List String → Except WikiError (List (String × V))} {truthy : V → Bool}
    {i : ℕ} {c : List String} {l : List (String × V)} (h : fetch i c = .ok l) (k : String) :
    fetchVal fetch truthy i c k = getA (l.filter (fun p => truthy p.2)) k := by
  unfold fetchVal
  rw [h]
theorem processChunk_inv {V : Type}
    {fetch : ℕ → List String → Except WikiError (List (String × V))} {truthy : V → Bool}
    {opKey : String} {A : List String} (dur : ℕ → ℕ)
    (hwb : WellBehaved fetch truthy)
    {st : FetchSt V} (hinv : Inv fetch truthy opKey A st)
    {c : List String} (hcnd : c.Nodup) (hcsub : c ⊆ st.undone) :
    (processChunk fetch truthy opKey dur st c).2 = none ∧
    Inv fetch truthy opKey A (processChunk fetch truthy opKey dur st c).1 ∧
    (∀ x, x ∈ (processChunk fetch truthy opKey dur st c).1.undone → x ∈ st.undone) ∧
    (∀ x, x ∈ st.undone → x ∉ c → x ∈ (processChunk fetch truthy opKey dur st c).1.undone) ∧
    (processChunk fetch truthy opKey dur st c).1.tries = st.tries ∧
    (processChunk fetch truthy opKey dur st c).1.curChunk = st.curChunk ∧
    (processChunk fetch truthy opKey dur st c).1.rounds = st.rounds := by
  rcases hfc : fetch st.count c with e | l
  · -- WikiError: absorbed, only count/clock/calls change
    have hps : processChunk fetch truthy opKey dur st c =
        ({ st with count := st.count + 1,
                   clock := st.clock + dur st.count + (if e.httpCode = some 429 then 60 else 0),
                   calls := st.calls ++ [(st.count, c)] }, none) := by
      unfold processChunk
      rw [hfc]
    rw [hps]
    refine ⟨rfl, ?_, fun x hx => hx, fun x hx _ => hx, rfl, rfl, rfl⟩
    refine ⟨hinv.und_nodup, hinv.und_sub, hinv.res_not_und, hinv.res_sub, hinv.memo_fresh,
      ?_, ?_, ?_⟩
    · intro p hp
      rcases List.mem_append.mp hp with h | h
      · exact Nat.lt_succ_of_lt (hinv.calls_lt p h)
      · rw [List.mem_singleton.mp h]
        exact Nat.lt_succ_self _
    · intro p hp k hk hsome
      rcases List.mem_append.mp hp with h | h
      · exact hinv.pinned p h k hk hsome
      · rw [List.mem_singleton.mp h] at hsome
        rw [fetchVal_error hfc] at hsome
        simp at hsome
    · intro p hp q hq hlt k hk hsome
      rcases List.mem_append.mp hp with h | h
      · rcases List.mem_append.mp hq with h' | h'
        · exact hinv.no_refetch p h q h' hlt k hk hsome
        · rw [List.mem_singleton.mp h']
          intro hkc
          exact (hinv.pinned p h k hk hsome).1 (hcsub hkc)
      · rcases List.mem_append.mp hq with h' | h'
        · have h1 := hinv.calls_lt q h'
          rw [List.mem_singleton.mp h] at hlt
          omega
        · rw [List.mem_singleton.mp h, List.mem_singleton.mp h'] at hlt
          omega
  · -- success: filter to truthy values and merge via removeAll
    obtain ⟨hl1, hl2⟩ := hwb st.count c l hcnd hfc
    have hps : processChunk fetch truthy opKey dur st c =
        removeAll opKey (l.filter (fun p => truthy p.2))
          { st with count := st.count + 1,
                    clock := st.clock + dur st.count,
                    calls := st.calls ++ [(st.count, c)] } := by
      unfold processChunk
      rw [hfc]
    set st1 : FetchSt V :=
      { st with count := st.count + 1,
                clock := st.clock + dur st.count,
                calls := st.calls ++ [(st.count, c)] } with hst1
    set L : List (String × V) := l.filter (fun p => truthy p.2) with hL
    have hLl : ∀ p ∈ L, p ∈ l ∧ truthy p.2 = true := by
      intro p hp
      have := List.mem_filter.mp hp
      exact ⟨this.1, by simpa using this.2⟩
    have hLc : ∀ p ∈ L, p.1 ∈ c := by
      intro p hp
      exact hl2 p (hLl p hp).1 (hLl p hp).2
    have hLnd : (L.map Prod.fst).Nodup :=
      ((List.filter_sublist l).map Prod.fst).nodup hl1
    have hLsub : ∀ p ∈ L, p.1 ∈ st1.undone := fun p hp => hcsub (hLc p hp)
    have hLres : ∀ p ∈ L, getA st1.result p.1 = none := by
      intro p hp
      exact Option.not_isSome_iff_eq_none.mp
        (fun hs => hinv.res_not_und p.1 hs (hcsub (hLc p hp)))
    have hLmem : ∀ p ∈ L, getA st1.memo (opKey, p.1) = none := fun p hp =>
      hinv.memo_fresh p.1 (hcsub (hLc p hp))
    have hgetLc : ∀ k, (getA L k).isSome = true → k ∈ c := by
      intro k hs
      obtain ⟨v, hv⟩ := getA_isSome_mem hs
      exact hLc (k, v) hv
    obtain ⟨e0, n0, u0, r0, m0, c0, k0, t0, q0, a0, d0⟩ :=
      removeAll_sound opKey L st1 hLnd hLsub hinv.und_nodup hLres hLmem
    rw [hps]
    have hfv : ∀ k, fetchVal fetch truthy st.count c k = getA L k := fetchVal_ok hfc
    refine ⟨e0, ?_, ?_, ?_, t0, q0, d0⟩
    · refine ⟨n0, ?_, ?_, ?_, ?_, ?_, ?_, ?_⟩
      · intro x hx
        exact hinv.und_sub ((u0 x).mp hx).1
      · intro k hs
        rw [r0 k] at hs
        rcases hgl : getA L k with _ | v
        · rw [hgl, Option.none_or] at hs
          intro hx
          exact hinv.res_not_und k hs (((u0 k).mp hx).1)
        · intro hx
          rw [((u0 k).mp hx).2] at hgl
          cases hgl
      · intro k hs
        rw [r0 k] at hs
        rcases hgl : getA L k with _ | v
        · rw [hgl, Option.none_or] at hs
          exact hinv.res_sub k hs
        · exact hinv.und_sub (hcsub (hgetLc k (by rw [hgl]; rfl)))
      · intro k hk
        rw [m0 k, ((u0 k).mp hk).2, Option.none_or]
        exact hinv.memo_fresh k (((u0 k).mp hk).1)
      · rw [a0, c0]
        intro p hp
        rcases List.mem_append.mp hp with h | h
        · exact Nat.lt_succ_of_lt (hinv.calls_lt p h)
        · rw [List.mem_singleton.mp h]
          exact Nat.lt_succ_self _
      · rw [a0]
        intro p hp k hk hsome
        rcases List.mem_append.mp hp with h | h
        · obtain ⟨hk1, hk2⟩ := hinv.pinned p h k hk hsome
          have hgl : getA L k = none := by
            rcases hgl : getA L k with _ | v
            · rfl
            · exact absurd (hcsub (hgetLc k (by rw [hgl]; rfl))) hk1
          constructor
          · intro hx
            exact hk1 (((u0 k).mp hx).1)
          · rw [r0 k, hgl, Option.none_or]
            exact hk2
        · rw [List.mem_singleton.mp h] at hsome hk ⊢
          rw [hfv k] at hsome ⊢
          constructor
          · intro hx
            rw [((u0 k).mp hx).2] at hsome
            cases hsome
          · rw [r0 k]
            rcases hgl : getA L k with _ | v
            · rw [hgl] at hsome; cases hsome
            · rfl
      · rw [a0]
        intro p hp q hq hlt k hk hsome
        rcases List.mem_append.mp hp with h | h
        · rcases List.mem_append.mp hq with h' | h'
          · exact hinv.no_refetch p h q h' hlt k hk hsome
          · rw [List.mem_singleton.mp h']
            intro hkc
            exact (hinv.pinned p h k hk hsome).1 (hcsub hkc)
        · rcases List.mem_append.mp hq with h' | h'
          · have h1 := hinv.calls_lt q h'
            rw [List.mem_singleton.mp h] at hlt
            omega
          · rw [List.mem_singleton.mp h, List.mem_singleton.mp h'] at hlt
            omega
    · intro x hx
      exact ((u0 x).mp hx).1
    · intro x hx hxc
      refine (u0 x).mpr ⟨hx, ?_⟩
      rcases hgl : getA L x with _ | v
      · rfl
      · exact absurd (hgetLc x (by rw [hgl]; rfl)) hxc
theorem processChunks_inv {V : Type}
    {fetch : ℕ → List String → Except WikiError (List (String × V))} {truthy : V → Bool}
    {opKey : String} {A : List String} (dur : ℕ → ℕ)
    (hwb : WellBehaved fetch truthy) :
    ∀ (cs : List (List String)) (st : FetchSt V),
      Inv fetch truthy opKey A st →
      (∀ c ∈ cs, c.Nodup ∧ c ⊆ st.undone) →
      List.Pairwise List.Disjoint cs →
      (processChunks fetch truthy opKey dur cs st).2 = none ∧
      Inv fetch truthy opKey A (processChunks fetch truthy opKey dur cs st).1 ∧
      (∀ x, x ∈ (processChunks fetch truthy opKey dur cs st).1.undone → x ∈ st.undone) ∧
      (processChunks fetch truthy opKey dur cs st).1.tries = st.tries ∧
      (processChunks fetch truthy opKey dur cs st).1.curChunk = st.curChunk ∧
      (processChunks fetch truthy opKey dur cs st).1.rounds = st.rounds := by
  intro cs
  induction cs with
  | nil =>
    intro st h _ _
    exact ⟨rfl, h, fun x hx => hx, rfl, rfl, rfl⟩
  | cons c cs ih =>
    intro st h hcs hdis
    obtain ⟨e1, hi1, hu1, hu2, ht1, hq1, hr1⟩ :=
      processChunk_inv dur hwb h (hcs c (List.mem_cons_self _ _)).1
        (hcs c (List.mem_cons_self _ _)).2
    rcases hpc : processChunk fetch truthy opKey dur st c with ⟨st', e'⟩
    rw [hpc] at e1 hi1 hu1 hu2 ht1 hq1 hr1
    simp only at e1 hi1 hu1 hu2 ht1 hq1 hr1
    subst e1
    have hrw : processChunks fetch truthy opKey dur (c :: cs) st =
        processChunks fetch truthy opKey dur cs st' := by
      conv_lhs => rw [processChunks]
      rw [hpc]
    rw [hrw]
    have hcs' : ∀ c' ∈ cs, c'.Nodup ∧ c' ⊆ st'.undone := by
      intro c' hc'
      refine ⟨(hcs c' (List.mem_cons_of_mem _ hc')).1, ?_⟩
      intro x hx
      refine hu2 x ((hcs c' (List.mem_cons_of_mem _ hc')).2 hx) ?_
      exact ((List.pairwise_cons.mp hdis).1 c' hc').symm hx
    obtain ⟨e2, hi2, hu3, ht2, hq2, hr2⟩ := ih st' hi1 hcs' (List.pairwise_cons.mp hdis).2
    refine ⟨e2, hi2, ?_, ?_, ?_, ?_⟩
    · intro x hx
      exact hu1 x (hu3 x hx)
    · rw [ht2, ht1]
    · rw [hq2, hq1]
    · rw [hr2, hr1]
/-! ### `startRound` projections and invariant transport -/
theorem startRound_undone {V : Type} (st : FetchSt V) : (startRound st).undone = st.undone := by
  unfold startRound; split <;> rfl
theorem startRound_result {V : Type} (st : FetchSt V) : (startRound st).result = st.result := by
  unfold startRound; split <;> rfl
theorem startRound_memo {V : Type} (st : FetchSt V) : (startRound st).memo = st.memo := by
  unfold startRound; split <;> rfl
theorem startRound_count {V : Type} (st : FetchSt V) : (startRound st).count = st.count := by
  unfold startRound; split <;> rfl
theorem startRound_calls {V : Type} (st : FetchSt V) : (startRound st).calls = st.calls := by
  unfold startRound; split <;> rfl
theorem startRound_tries {V : Type} (st : FetchSt V) : (startRound st).tries = st.tries + 1 := by
  unfold startRound; split <;> rfl
theorem inv_startRound {V : Type}
    {fetch : ℕ → List String → Except WikiError (List (String × V))} {truthy : V → Bool}
    {opKey : String} {A : List String} {st : FetchSt V}
    (h : Inv fetch truthy opKey A st) : Inv fetch truthy opKey A (startRound st) := by
  obtain ⟨h1, h2, h3, h4, h5, h6, h7, h8⟩ := h
  refine ⟨?_, ?_, ?_, ?_, ?_, ?_, ?_, ?_⟩ <;>
    simp only [startRound_undone, startRound_result, startRound_memo, startRound_calls,
      startRound_count] <;>
    assumption
theorem runLoop_inv {V : Type}
    {fetch : ℕ → List String → Except WikiError (List (String × V))} {truthy : V → Bool}
    {opKey : String} {dur : ℕ → ℕ} {A : List String}
    (hwb : WellBehaved fetch truthy) :
    ∀ (fuel : ℕ) (st : FetchSt V), Inv fetch truthy opKey A st →
      (runLoop fetch truthy opKey dur fuel st).2 = none ∧
      Inv fetch truthy opKey A (runLoop fetch truthy opKey dur fuel st).1 := by
  intro fuel
  induction fuel with
  | zero => intro st h; exact ⟨rfl, h⟩
  | succ n ih =>
    intro st h
    unfold runLoop
    by_cases hg : loopGuard st
    · rw [if_pos hg]
      have hinv3 : Inv fetch truthy opKey A (startRound st) := inv_startRound h
      have hnd : (startRound st).undone.Nodup := by
        rw [startRound_undone]; exact h.und_nodup
      have hch := iter_chunk_nodup ((startRound st).curChunk) hnd
      have hsubs : ∀ c ∈ iter_chunk (startRound st).curChunk (startRound st).undone,
          c.Nodup ∧ c ⊆ (startRound st).undone :=
        fun c hc => ⟨hch.1 c hc, iter_chunk_sub hc⟩
      obtain ⟨e1, hi1, _, _, _, _⟩ :=
        processChunks_inv dur hwb _ (startRound st) hinv3 hsubs hch.2
      rcases hpc : processChunks fetch truthy opKey dur
          (iter_chunk (startRound st).curChunk (startRound st).undone) (startRound st)
        with ⟨st', e'⟩
      rw [hpc] at e1 hi1
      simp only at e1 hi1
      subst e1
      exact ih st' hi1
    · rw [if_neg hg]
      exact ⟨rfl, h⟩
/-! ### Frame lemmas (no hypotheses on `fetch`): chunk processing never touches
`tries`, `curChunk` or the `rounds` trace. -/
theorem removeAll_frame {V : Type} (opKey : String) :
    ∀ (L : List (String × V)) (st : FetchSt V),
      (removeAll opKey L st).1.tries = st.tries ∧
      (removeAll opKey L st).1.curChunk = st.curChunk ∧
      (removeAll opKey L st).1.rounds = st.rounds := by
  intro L
  induction L with
  | nil => intro st; exact ⟨rfl, rfl, rfl⟩
  | cons p rest ih =>
    intro st
    obtain ⟨k, v⟩ := p
    unfold removeAll
    by_cases hk : k ∈ st.undone
    · rw [if_pos hk]
      exact ih _
    · rw [if_neg hk]
      exact ⟨rfl, rfl, rfl⟩
theorem processChunk_frame {V : Type}
    (fetch : ℕ → List String → Except WikiError (List (String × V))) (truthy : V → Bool)
    (opKey : String) (dur : ℕ → ℕ) (st : FetchSt V) (c : List String) :
    (processChunk fetch truthy opKey dur st c).1.tries = st.tries ∧
    (processChunk fetch truthy opKey dur st c).1.curChunk = st.curChunk ∧
    (processChunk fetch truthy opKey dur st c).1.rounds = st.rounds := by
  unfold processChunk
  rcases fetch st.count c with e | l
  · exact ⟨rfl, rfl, rfl⟩
  · exact removeAll_frame opKey _ _
theorem processChunks_frame {V : Type}
    (fetch : ℕ → List String → Except WikiError (List (String × V))) (truthy : V → Bool)
    (opKey : String) (dur : ℕ → ℕ) :
    ∀ (cs : List (List String)) (st : FetchSt V),
      (processChunks fetch truthy opKey dur cs st).1.tries = st.tries ∧
      (processChunks fetch truthy opKey dur cs st).1.curChunk = st.curChunk ∧
      (processChunks fetch truthy opKey dur cs st).1.rounds = st.rounds := by
  intro cs
  induction cs with
  | nil => intro st; exact ⟨rfl, rfl, rfl⟩
  | cons c cs ih =>
    intro st
    have hf := processChunk_frame fetch truthy opKey dur st c
    unfold processChunks
    rcases hpc : processChunk fetch truthy opKey dur st c with ⟨st', e'⟩
    rw [hpc] at hf
    simp only at hf
    cases e' with
    | none =>
      obtain ⟨h1, h2, h3⟩ := ih st'
      exact ⟨by rw [h1, hf.1], by rw [h2, hf.2.1], by rw [h3, hf.2.2]⟩
    | some e => exact hf
theorem memoLoop_frame {V : Type} (opKey : String) :
    ∀ (todo : List String) (changed : Bool) (st : FetchSt V),
      (memoLoop opKey changed todo st).1.tries = st.tries ∧
      (memoLoop opKey changed todo st).1.curChunk = st.curChunk ∧
      (memoLoop opKey changed todo st).1.rounds = st.rounds := by
  intro todo
  induction todo with
  | nil => intro changed st; cases changed <;> exact ⟨rfl, rfl, rfl⟩
  | cons a rest ih =>
    intro changed st
    unfold memoLoop
    cases changed with
    | true => exact ⟨rfl, rfl, rfl⟩
    | false =>
      simp only [Bool.false_eq_true, if_false]
      rcases getA st.memo (opKey, a) with _ | v
      · exact ih false st
      · exact ih true _
theorem shrink_facts (a p : ℕ) :
    max 1 (min a p / 3) ≤ max a 1 ∧ (max 1 (min a p / 3) < a ∨ max 1 (min a p / 3) ≤ 1) := by
  have hm1 : min a p / 3 ≤ min a p := Nat.div_le_self _ _
  have hma : min a p ≤ a := min_le_left _ _
  rcases Nat.lt_or_ge a 2 with h | h
  · have h0 : min a p / 3 = 0 := Nat.div_eq_of_lt (by omega)
    omega
  · have hlt : min a p / 3 < a := by
      calc min a p / 3 ≤ a / 3 := Nat.div_le_div_right hma
        _ < a := Nat.div_lt_self (by omega) (by omega)
    omega
theorem rinv_of_eq {V : Type} {chunkSize : ℕ} {st st' : FetchSt V} (h : RInv chunkSize st)
    (hr : st'.rounds = st.rounds) (ht : st'.tries = st.tries)
    (hc : st'.curChunk = st.curChunk) : RInv chunkSize st' := by
  obtain ⟨h1, h2, h3, h4, h5, h6, h7⟩ := h
  refine ⟨?_, ?_, ?_, ?_, ?_, ?_, ?_⟩ <;> simp only [hr, ht, hc] <;> assumption
theorem rinv_init {V : Type} (chunkSize : ℕ) (memo0 : List ((String × String) × V))
    (undone : List String) : RInv chunkSize (initSt chunkSize memo0 undone) := by
  refine ⟨rfl, by dsimp only [initSt]; omega, ?_, ?_, List.chain'_nil, fun h => h, ?_⟩
  · intro e he
    cases he
  · intro e he
    cases he
  · intro _ e he
    cases he
theorem rinv_startRound {V : Type} {chunkSize : ℕ} {st : FetchSt V} (h : RInv chunkSize st)
    (hg : loopGuard st) : RInv chunkSize (startRound st) := by
  obtain ⟨hlen, htle, hlast, hent, hch, hcp, hsp⟩ := h
  obtain ⟨hne, hdisj⟩ := hg
  have hpen : 1 ≤ st.undone.length := List.length_pos.mpr hne
  unfold startRound
  by_cases ht : 0 < st.tries
  · rw [if_pos ht]
    have htlt : st.tries < 3 := by
      rcases hdisj with h0 | ⟨_, h3⟩
      · omega
      · exact h3
    have hclk : st.clock < untilT := by
      rcases hdisj with h0 | ⟨hc, _⟩
      · omega
      · exact hc
    refine ⟨?_, by dsimp only; omega, ?_, ?_, ?_, ?_, ?_⟩
    · simp [hlen]
    · intro e he
      rw [List.getLast?_concat] at he
      injection he with he
      subst he
      exact ⟨rfl, rfl⟩
    · intro e he
      rcases List.mem_append.mp he with h' | h'
      · exact hent e h'
      · rw [List.mem_singleton.mp h']
        exact ⟨by dsimp only; omega, fun _ => hclk, hpen⟩
    · rw [List.chain'_append]
      refine ⟨hch, List.chain'_singleton _, ?_⟩
      intro x hx y hy
      have hxl := hlast x hx
      rw [List.head?_cons] at hy
      injection hy with hy
      subst hy
      have hxt := hxl.1
      refine ⟨by dsimp only; omega, by rw [hxl.2], ?_, ?_⟩
      · rw [hxl.2]
        exact (shrink_facts st.curChunk st.undone.length).1
      · rw [hxl.2]
        exact (shrink_facts st.curChunk st.undone.length).2
    · intro _
      exact le_max_left 1 _
    · intro hcs e he
      rcases List.mem_append.mp he with h' | h'
      · exact hsp hcs e h'
      · rw [List.mem_singleton.mp h']
        exact le_max_left 1 _
  · rw [if_neg ht]
    have ht0 : st.tries = 0 := by omega
    have hrnil : st.rounds = [] := List.length_eq_zero.mp (by rw [hlen, ht0])
    refine ⟨?_, by dsimp only; omega, ?_, ?_, ?_, hcp, ?_⟩
    · simp [hrnil, ht0]
    · intro e he
      rw [hrnil] at he
      simp only [List.nil_append, List.getLast?_singleton] at he
      injection he with he
      subst he
      exact ⟨rfl, rfl⟩
    · intro e he
      rw [hrnil] at he
      rw [List.nil_append, List.mem_singleton] at he
      subst he
      exact ⟨by dsimp only; omega, by dsimp only; intro h2; omega, hpen⟩
    · rw [hrnil, List.nil_append]
      exact List.chain'_singleton _
    · intro hcs e he
      rw [hrnil] at he
      rw [List.nil_append, List.mem_singleton] at he
      subst he
      exact hcp hcs
theorem runLoop_rinv {V : Type}
    {fetch : ℕ → List String → Except WikiError (List (String × V))} {truthy : V → Bool}
    {opKey : String} {dur : ℕ → ℕ} {chunkSize : ℕ} :
    ∀ (fuel : ℕ) (st : FetchSt V), RInv chunkSize st →
      RInv chunkSize (runLoop fetch truthy opKey dur fuel st).1 := by
  intro fuel
  induction fuel with
  | zero => intro st h; exact h
  | succ n ih =>
    intro st h
    unfold runLoop
    by_cases hg : loopGuard st
    · rw [if_pos hg]
      have h3 : RInv chunkSize (startRound st) := rinv_startRound h hg
      have hf := processChunks_frame fetch truthy opKey dur
        (iter_chunk (startRound st).curChunk (startRound st).undone) (startRound st)
      rcases hpc : processChunks fetch truthy opKey dur
          (iter_chunk (startRound st).curChunk (startRound st).undone) (startRound st)
        with ⟨st', e'⟩
      rw [hpc] at hf
      simp only at hf
      have h4 : RInv chunkSize st' := rinv_of_eq h3 hf.2.2 hf.1 hf.2.1
      cases e' with
      | none => exact ih st' h4
      | some e => exact h4
    · rw [if_neg hg]
      exact h
theorem chain_strict : ∀ {l : List RoundRec}, List.Chain' rstep l →
    (∀ e ∈ l, 1 ≤ e.sz) → List.Chain' rstepStrict l := by
  intro l
  induction l with
  | nil => intro _ _; exact List.chain'_nil
  | cons a l ih =>
    intro h hpos
    rw [List.chain'_cons'] at h ⊢
    refine ⟨?_, ih h.2 (fun e he => hpos e (List.mem_cons_of_mem _ he))⟩
    intro y hy
    obtain ⟨r1, r2, r3, r4⟩ := h.1 y hy
    have hya : 1 ≤ a.sz := hpos a (List.mem_cons_self _ _)
    have hyy : 1 ≤ y.sz := hpos y (List.mem_cons_of_mem _ (List.mem_of_mem_head? hy))
    rw [Nat.max_eq_left hya] at r3
    exact ⟨r1, r2, r3, by omega⟩
/-! ### Wiring the invariants to the whole wrapper call -/
theorem undoneInit_sub (args : List String) : undoneInit args ⊆ args := by
  intro x hx
  unfold undoneInit at hx
  exact List.mem_of_mem_filter (List.mem_dedup.mp hx)
theorem undoneInit_nodup (args : List String) : (undoneInit args).Nodup :=
  List.nodup_dedup _
theorem inv_init {V : Type}
    {fetch : ℕ → List String → Except WikiError (List (String × V))} {truthy : V → Bool}
    {opKey : String} (chunkSize : ℕ) (memo0 : List ((String × String) × V))
    {A undone : List String} (hnd : undone.Nodup) (hsub : undone ⊆ A)
    (hmemo : ∀ a ∈ undone, getA memo0 (opKey, a) = none) :
    Inv fetch truthy opKey A (initSt chunkSize memo0 undone) := by
  refine ⟨hnd, hsub, ?_, ?_, hmemo, ?_, ?_, ?_⟩
  · intro k hs
    simp [initSt, getA] at hs
  · intro k hs
    simp [initSt, getA] at hs
  · intro p hp
    cases hp
  · intro p hp
    cases hp
  · intro p hp
    cases hp
theorem retryFetchSt_inv {V : Type}
    {fetch : ℕ → List String → Except WikiError (List (String × V))} {truthy : V → Bool}
    {opKey : String} {dur : ℕ → ℕ} {chunkSize : ℕ}
    {memo0 : List ((String × String) × V)} {args : List String}
    (hwb : WellBehaved fetch truthy) (hmemo : NoHits opKey memo0 args) :
    (retryFetchSt fetch truthy opKey dur chunkSize memo0 args).2 = none ∧
    Inv fetch truthy opKey (undoneInit args)
      (retryFetchSt fetch truthy opKey dur chunkSize memo0 args).1 := by
  unfold retryFetchSt
  by_cases h0 : undoneInit args = []
  · rw [if_pos h0]
    exact ⟨rfl, inv_init chunkSize memo0 List.nodup_nil (by simp) (by simp)⟩
  · rw [if_neg h0]
    rw [memoLoop_no_hits opKey _ _ (fun a ha => hmemo a ha)]
    exact runLoop_inv hwb 3 _
      (inv_init chunkSize memo0 (undoneInit_nodup args) (fun x hx => hx) hmemo)
theorem retryFetchSt_rinv {V : Type}
    (fetch : ℕ → List String → Except WikiError (List (String × V))) (truthy : V → Bool)
    (opKey : String) (dur : ℕ → ℕ) (chunkSize : ℕ)
    (memo0 : List ((String × String) × V)) (args : List String) :
    RInv chunkSize (retryFetchSt fetch truthy opKey dur chunkSize memo0 args).1 := by
  unfold retryFetchSt
  by_cases h0 : undoneInit args = []
  · rw [if_pos h0]
    exact rinv_init chunkSize memo0 []
  · rw [if_neg h0]
    have h1 := rinv_init (V := V) chunkSize memo0 (undoneInit args)
    have hf := memoLoop_frame (V := V) opKey (undoneInit args) false
      (initSt chunkSize memo0 (undoneInit args))
    rcases hm : memoLoop opKey false (undoneInit args)
        (initSt chunkSize memo0 (undoneInit args)) with ⟨st1, e1⟩
    rw [hm] at hf
    simp only at hf
    have h2 : RInv chunkSize st1 := rinv_of_eq h1 hf.2.2 hf.1 hf.2.1
    cases e1 with
    | none => exact runLoop_rinv 3 st1 h2
    | some e => exact h2
/-! ### Claim C5 -/
/-- C5: under the protocol preconditions (the injected function fails only
with `WikiError` — enforced by its `Except WikiError` type — and, when it
succeeds on a chunk, returns a dict whose truthy-valued keys come from that
chunk; no memoization hit, cf. C9), a batch call never propagates an
exception: every per-chunk `WikiError` is absorbed, the wrapper returns a
mapping, and unresolved keys are simply absent (every resolved key is one of
the requested keys). -/
theorem c5_no_throw {V : Type}
    (fetch : ℕ → List String → Except WikiError (List (String × V))) (truthy : V → Bool)
    (opKey : String) (dur : ℕ → ℕ) (chunkSize : ℕ)
    (memo0 : List ((String × String) × V)) (args : List String)
    (hwb : WellBehaved fetch truthy) (hmemo : NoHits opKey memo0 args) :
    (retryFetchSt fetch truthy opKey dur chunkSize memo0 args).2 = none ∧
    ∀ k, (getA (retryFetchSt fetch truthy opKey dur chunkSize memo0 args).1.result k).isSome =
        true → k ∈ args := by
  obtain ⟨he, hinv⟩ := retryFetchSt_inv hwb hmemo
  exact ⟨he, fun k hk => undoneInit_sub args (hinv.res_sub k hk)⟩
theorem c5_no_throw_witness :
    (retryFetchSt (V := ℕ) (fun _ c => .ok (c.map (fun k => (k, 1)))) (fun v => decide (v ≠ 0))
        "op" (fun _ => 7) 300 [] ["a", "b"]).2 = none ∧
    ∀ k, (getA (retryFetchSt (V := ℕ) (fun _ c => .ok (c.map (fun k => (k, 1))))
        (fun v => decide (v ≠ 0)) "op" (fun _ => 7) 300 [] ["a", "b"]).1.result k).isSome =
        true → k ∈ ["a", "b"] :=
  c5_no_throw _ _ _ _ _ _ _
    (by
      intro i c l hnd h
      injection h with h
      subst h
      constructor
      · rw [List.map_map]
        have hfn : (Prod.fst ∘ fun k : String => (k, (1 : ℕ))) = id := rfl
        rw [hfn, List.map_id]
        exact hnd
      · intro p hp _
        rcases List.mem_map.mp hp with ⟨k, hk, rfl⟩
        exact hk)
    (fun a _ => rfl)
/-! ### Claim C6 -/
/-- C6 counterexample: the wall-clock bound "`totalTimeBudget` plus one
chunk-call duration" is violated.  Three keys with chunk size 1 and a fetch
that always fails with a 200-time-unit call: the first round is admitted
unconditionally and makes three such calls, so the run returns at clock 600,
which exceeds `untilT + 200 = 500`. -/
theorem c6_counterexample :
    (retryFetchSt (V := ℕ) (fun _ _ => .error ⟨"err", "q", none⟩) (fun v => decide (v ≠ 0))
        "op" (fun _ => 200) 1 [] ["a", "b", "c"]).1.clock = 600 ∧
      untilT + 200 < 600 := by decide
/-- C6 (amended): for any finite key set and any behaviour of the injected
function, the retry loop runs at most 3 rounds; every round is entered only
with a non-empty pending set, and every round after the first is entered only
while the clock is below the 5-minute deadline.  (The elapsed time can exceed
the deadline by a whole round of chunk calls, not just one call.) -/
theorem c6_amended {V : Type}
    (fetch : ℕ → List String → Except WikiError (List (String × V))) (truthy : V → Bool)
    (opKey : String) (dur : ℕ → ℕ) (chunkSize : ℕ)
    (memo0 : List ((String × String) × V)) (args : List String) :
    (retryFetchSt fetch truthy opKey dur chunkSize memo0 args).1.rounds.length ≤ 3 ∧
    ∀ e ∈ (retryFetchSt fetch truthy opKey dur chunkSize memo0 args).1.rounds,
      1 ≤ e.pen ∧ (2 ≤ e.t → e.clk < untilT) := by
  have h := retryFetchSt_rinv fetch truthy opKey dur chunkSize memo0 args
  refine ⟨?_, ?_⟩
  · rw [h.len_tries]
    exact h.tries_le
  · intro e he
    exact ⟨(h.entries e he).2.2, (h.entries e he).2.1⟩
/-! ### Claim C7 -/
/-- C7: when the decorator's `chunk_size` argument is ≥ 1 (all call sites use
300, 1000, 5000 or the 5000 default), the chunk size used by every round is
≥ 1, and consecutive rounds obey
`cur' = max(1, min(cur, len(undone)) // 3)` with `cur' ≤ cur` and
(`cur' < cur` or `cur' = 1`): the size never increases and strictly
decreases-or-stays-at-1 after each round. -/
theorem c7_chunk_shrink {V : Type}
    (fetch : ℕ → List String → Except WikiError (List (String × V))) (truthy : V → Bool)
    (opKey : String) (dur : ℕ → ℕ) (chunkSize : ℕ)
    (memo0 : List ((String × String) × V)) (args : List String)
    (hcs : 1 ≤ chunkSize) :
    (∀ e ∈ (retryFetchSt fetch truthy opKey dur chunkSize memo0 args).1.rounds, 1 ≤ e.sz) ∧
    List.Chain' rstepStrict
      (retryFetchSt fetch truthy opKey dur chunkSize memo0 args).1.rounds := by
  have h := retryFetchSt_rinv fetch truthy opKey dur chunkSize memo0 args
  exact ⟨h.sz_pos hcs, chain_strict h.chain (h.sz_pos hcs)⟩
theorem c7_chunk_shrink_witness :
    (∀ e ∈ (retryFetchSt (V := ℕ) (fun _ _ => .error ⟨"e", "q", none⟩) (fun v => decide (v ≠ 0))
        "op" (fun _ => 0) 5000 [] ["a"]).1.rounds, 1 ≤ e.sz) ∧
    List.Chain' rstepStrict
      (retryFetchSt (V := ℕ) (fun _ _ => .error ⟨"e", "q", none⟩) (fun v => decide (v ≠ 0))
        "op" (fun _ => 0) 5000 [] ["a"]).1.rounds :=
  c7_chunk_shrink _ _ _ _ _ _ _ (by decide)
/-! ### Claim C8 -/
/-- C8: in a completed run (same preconditions as C5), a resolved key is
absent from the pending set; the result value of any key a recorded chunk
call resolved equals that call's value — so the first success is never
altered by a later round, since (last conjunct) a key resolved by one call
never appears in any later call's chunk, even though a later call could have
produced a different value. -/
theorem c8_first_success_wins {V : Type}
    (fetch : ℕ → List String → Except WikiError (List (String × V))) (truthy : V → Bool)
    (opKey : String) (dur : ℕ → ℕ) (chunkSize : ℕ)
    (memo0 : List ((String × String) × V)) (args : List String)
    (hwb : WellBehaved fetch truthy) (hmemo : NoHits opKey memo0 args) :
    (retryFetchSt fetch truthy opKey dur chunkSize memo0 args).2 = none ∧
    (∀ k, (getA (retryFetchSt fetch truthy opKey dur chunkSize memo0 args).1.result k).isSome =
        true → k ∉ (retryFetchSt fetch truthy opKey dur chunkSize memo0 args).1.undone) ∧
    (∀ p ∈ (retryFetchSt fetch truthy opKey dur chunkSize memo0 args).1.calls, ∀ k ∈ p.2,
        (fetchVal fetch truthy p.1 p.2 k).isSome = true →
        getA (retryFetchSt fetch truthy opKey dur chunkSize memo0 args).1.result k =
          fetchVal fetch truthy p.1 p.2 k) ∧
    (∀ p ∈ (retryFetchSt fetch truthy opKey dur chunkSize memo0 args).1.calls,
      ∀ q ∈ (retryFetchSt fetch truthy opKey dur chunkSize memo0 args).1.calls, p.1 < q.1 →
        ∀ k ∈ p.2, (fetchVal fetch truthy p.1 p.2 k).isSome = true → k ∉ q.2) := by
  obtain ⟨he, hinv⟩ := retryFetchSt_inv hwb hmemo
  exact ⟨he, hinv.res_not_und,
    fun p hp k hk hs => (hinv.pinned p hp k hk hs).2,
    hinv.no_refetch⟩
theorem c8_first_success_wins_witness :
    (retryFetchSt (V := ℕ) (fun i c => .ok (c.map (fun k => (k, i + 1))))
        (fun v => decide (v ≠ 0)) "op" (fun _ => 0) 1 [] ["a", "b"]).2 = none ∧
    (∀ k, (getA (retryFetchSt (V := ℕ) (fun i c => .ok (c.map (fun k => (k, i + 1))))
        (fun v => decide (v ≠ 0)) "op" (fun _ => 0) 1 [] ["a", "b"]).1.result k).isSome =
        true → k ∉ (retryFetchSt (V := ℕ) (fun i c => .ok (c.map (fun k => (k, i + 1))))
        (fun v => decide (v ≠ 0)) "op" (fun _ => 0) 1 [] ["a", "b"]).1.undone) ∧
    (∀ p ∈ (retryFetchSt (V := ℕ) (fun i c => .ok (c.map (fun k => (k, i + 1))))
        (fun v => decide (v ≠ 0)) "op" (fun _ => 0) 1 [] ["a", "b"]).1.calls, ∀ k ∈ p.2,
        (fetchVal (fun i c => .ok (c.map (fun k => (k, i + 1)))) (fun v => decide (v ≠ 0))
          p.1 p.2 k).isSome = true →
        getA (retryFetchSt (V := ℕ) (fun i c => .ok (c.map (fun k => (k, i + 1))))
          (fun v => decide (v ≠ 0)) "op" (fun _ => 0) 1 [] ["a", "b"]).1.result k =
          fetchVal (fun i c => .ok (c.map (fun k => (k, i + 1)))) (fun v => decide (v ≠ 0))
            p.1 p.2 k) ∧
    (∀ p ∈ (retryFetchSt (V := ℕ) (fun i c => .ok (c.map (fun k => (k, i + 1))))
        (fun v => decide (v ≠ 0)) "op" (fun _ => 0) 1 [] ["a", "b"]).1.calls,
      ∀ q ∈ (retryFetchSt (V := ℕ) (fun i c => .ok (c.map (fun k => (k, i + 1))))
        (fun v => decide (v ≠ 0)) "op" (fun _ => 0) 1 [] ["a", "b"]).1.calls, p.1 < q.1 →
        ∀ k ∈ p.2, (fetchVal (fun i c => .ok (c.map (fun k => (k, i + 1))))
          (fun v => decide (v ≠ 0)) p.1 p.2 k).isSome = true → k ∉ q.2) :=
  c8_first_success_wins _ _ _ _ _ _ _
    (by
      intro i c l hnd h
      injection h with h
      subst h
      constructor
      · rw [List.map_map]
        have hfn : (Prod.fst ∘ fun k : String => (k, i + 1)) = id := rfl
        rw [hfn, List.map_id]
        exact hnd
      · intro p hp _
        rcases List.mem_map.mp hp with ⟨k, hk, rfl⟩
        exact hk)
    (fun a _ => rfl)
/-! ### Claim C9 -/
/-- C9: the memoization short-circuit is a code bug.  First call: one key,
resolved remotely, stored in the decorator's cache.  Second call with the
populated cache: instead of serving the key from the memo table and making
zero remote calls, the wrapper raises `RuntimeError: Set changed size during
iteration` — the loop at src/core/wiki.py lines 90-93 discards from the very
set it is iterating. -/
theorem c9_memo_runtime_error :
    ((retryFetchSt (V := ℕ) (fun _ _ => .ok [("tt0000001", 5)]) (fun v => decide (v ≠ 0))
        "get_countries" (fun _ => 0) 300 [] ["tt0000001"]).1.memo =
          [(("get_countries", "tt0000001"), 5)] ∧
      (retryFetchSt (V := ℕ) (fun _ _ => .ok [("tt0000001", 5)]) (fun v => decide (v ≠ 0))
        "get_countries" (fun _ => 0) 300 [] ["tt0000001"]).2 = none) ∧
    (retryFetchSt (V := ℕ) (fun _ _ => .ok [("tt0000001", 5)]) (fun v => decide (v ≠ 0))
        "get_countries" (fun _ => 0) 300 [(("get_countries", "tt0000001"), 5)]
        ["tt0000001"]).2 = some setIterMsg := by decide
/-! ### Claim C10 -/
/-- C10: if the injected function's first call returns a mapping holding a
truthy value for a key outside the pending set, the wrapper raises an
uncaught `KeyError` at `undone.remove(k)` and the batch call aborts. -/
theorem c10_keyerror {V : Type}
    (fetch : ℕ → List String → Except WikiError (List (String × V))) (truthy : V → Bool)
    (opKey : String) (dur : ℕ → ℕ) (chunkSize : ℕ)
    (memo0 : List ((String × String) × V)) (args : List String)
    (l : List (String × V)) (k : String) (v : V)
    (hmemo : NoHits opKey memo0 args)
    (hne : undoneInit args ≠ [])
    (hfetch : ∀ c, fetch 0 c = .ok l)
    (hkv : (k, v) ∈ l) (htr : truthy v = true) (hk : k ∉ undoneInit args) :
    (retryFetchSt fetch truthy opKey dur chunkSize memo0 args).2 = some "KeyError" := by
  unfold retryFetchSt
  rw [if_neg hne]
  rw [memoLoop_no_hits opKey _ _ (fun a ha => hmemo a ha)]
  set st0 : FetchSt V := initSt chunkSize memo0 (undoneInit args) with hst0
  have hg : loopGuard st0 := ⟨hne, Or.inl rfl⟩
  show (runLoop fetch truthy opKey dur (2 + 1) st0).2 = some "KeyError"
  rw [runLoop, if_pos hg]
  rcases hch : iter_chunk (startRound st0).curChunk (startRound st0).undone with _ | ⟨c₀, cs⟩
  · exact absurd hch (iter_chunk_ne_nil (by rw [startRound_undone]; exact hne))
  · set stR : FetchSt V := startRound st0 with hstR
    set st1 : FetchSt V :=
      { stR with count := stR.count + 1, clock := stR.clock + dur stR.count,
                 calls := stR.calls ++ [(stR.count, c₀)] } with hst1
    have hfR : fetch stR.count c₀ = .ok l := by
      rw [hstR, startRound_count]
      exact hfetch c₀
    have hpc : processChunk fetch truthy opKey dur stR c₀ =
        removeAll opKey (l.filter (fun p => truthy p.2)) st1 := by
      unfold processChunk
      rw [hfR, hst1]
    have hin : (k, v) ∈ l.filter (fun p => truthy p.2) :=
      List.mem_filter.mpr ⟨hkv, htr⟩
    have hku : k ∉ st1.undone := by
      rw [hst1]
      show k ∉ stR.undone
      rw [hstR, startRound_undone]
      exact hk
    have hkerr := removeAll_err opKey (l.filter (fun p => truthy p.2)) st1 k v hin hku
    rcases hra : removeAll opKey (l.filter (fun p => truthy p.2)) st1 with ⟨st', e'⟩
    rw [hra] at hkerr
    simp only at hkerr
    subst hkerr
    have hpcs : processChunks fetch truthy opKey dur (c₀ :: cs) stR = (st', some "KeyError") := by
      conv_lhs => rw [processChunks]
      rw [hpc, hra]
    rw [hpcs]
theorem c10_keyerror_witness :
    (retryFetchSt (V := ℕ) (fun _ _ => .ok [("zz", 1)]) (fun v => decide (v ≠ 0)) "op"
        (fun _ => 0) 300 [] ["a"]).2 = some "KeyError" :=
  c10_keyerror _ _ _ _ _ _ _ [("zz", 1)] "zz" 1
    (fun a _ => rfl) (by decide) (fun _ => rfl) (by decide) (by decide) (by decide)
end ImdbSql
